import Mathlib

/-!
# Verification of the LMDI-IDA core (src/lmdi_module.py)

Shallow embedding over the reals of the `PyLMDI` class (logarithmic mean,
log ratio, additive and multiplicative decomposition), of the single-step
decomposer `LMDI_single_step.LMDI_decomposer`, and of the multi-year driver
`LMDI_analysis.LMDI_analysis_func`.

Python lists become Lean lists; `np.log` and `np.exp` become `Real.log` and
`Real.exp`; list indexing `xs[i]` becomes `xs.getD i 0` (the theorems'
hypotheses keep every index in range, so the default is never reached).
The `reshape([-1, 1])` in the single-step decomposer is modelled exactly as
numpy performs it: the year-slice's driver matrix is flattened row-major and
re-chunked into singleton column vectors.
-/

namespace PyLMDI

open Classical in
/-- `PyLMDI.Lfun`: the logarithmic mean of the source, with the equality
branch returning 0. -/
noncomputable def Lfun (yt y0 : ℝ) : ℝ :=
  if yt = y0 then 0 else (yt - y0) / (Real.log yt - Real.log y0)

open Classical in
/-- `PyLMDI.Xfun`: the log-ratio of the source, with sentinel 1 when either
operand is 0. -/
noncomputable def Xfun (xt x0 : ℝ) : ℝ :=
  if x0 = 0 then 1 else if xt = 0 then 1 else Real.log (xt / x0)

/-- One driver's term of `PyLMDI.Add`: the Python comprehension
`sum([Lfun(Vt[i], V0[i]) * np.log(e[i] / s[i]) for i in range(len(s))])`,
where `s`, `e` are that driver's initial and final vectors. -/
noncomputable def addTerm (Vt V0 s e : List ℝ) : ℝ :=
  ((List.range s.length).map (fun i =>
    Lfun (Vt.getD i 0) (V0.getD i 0) * Real.log (e.getD i 0 / s.getD i 0))).sum

/-- `PyLMDI.Add`: the additive decomposition, first element the total change,
then one term per entry of `zip(X0, Xt)`. -/
noncomputable def Add (Vt V0 : List ℝ) (Xt X0 : List (List ℝ)) : List ℝ :=
  (Vt.sum - V0.sum) :: List.zipWith (fun s e => addTerm Vt V0 s e) X0 Xt

/-- The denominator `Lfun(sum(Vt), sum(V0))` that `PyLMDI.Mul` divides by in
every per-driver term. -/
noncomputable def MulDenom (Vt V0 : List ℝ) : ℝ := Lfun Vt.sum V0.sum

/-- One driver's exponent in `PyLMDI.Mul`: the Python comprehension
`sum([Lfun(Vt[i], V0[i]) / Lfun(sum(Vt), sum(V0)) * np.log(e[i] / s[i])
for i in range(len(s))])`. -/
noncomputable def mulTerm (Vt V0 s e : List ℝ) : ℝ :=
  ((List.range s.length).map (fun i =>
    Lfun (Vt.getD i 0) (V0.getD i 0) / MulDenom Vt V0 *
      Real.log (e.getD i 0 / s.getD i 0))).sum

/-- `PyLMDI.Mul`: the multiplicative decomposition, first element the total
ratio, then `exp` of one exponent per entry of `zip(X0, Xt)`. -/
noncomputable def Mul (Vt V0 : List ℝ) (Xt X0 : List (List ℝ)) : List ℝ :=
  (Vt.sum / V0.sum) :: List.zipWith (fun s e => Real.exp (mulTerm Vt V0 s e)) X0 Xt

/-- The per-driver additive formula as the spec states it (section 4.3):
`Σ_i LogMean(Vt[i], V0[i]) * LogRatio(Xt[d][i], X0[d][i])`, written with the
zero-sentinel `Xfun`. Stated from the spec's words for comparison with
`addTerm`, which is what the source actually computes. -/
noncomputable def addTermSpec (Vt V0 s e : List ℝ) : ℝ :=
  ((List.range s.length).map (fun i =>
    Lfun (Vt.getD i 0) (V0.getD i 0) * Xfun (e.getD i 0) (s.getD i 0))).sum

end PyLMDI

/-- One observation of the panel: a year tag, the aggregate (emissions)
value, and the row's value for each named driver column. -/
structure Row where
  year : Int
  emis : ℝ
  driver : String → ℝ

namespace LMDI_single_step

/-- `LMDI_single_step.LMDI_decomposer`: slices the panel at `year` and
`year + 1`, builds the aggregate vectors, reshapes the driver matrices with
`reshape([-1, 1])` (row-major flatten, then singleton rows), dispatches on
the mode string (`"add"` selects `Add`, anything else selects `Mul`), and
zips the driver names with the tail of the answer. -/
noncomputable def LMDI_decomposer (df : List Row) (year : Int) (mode : String)
    (drivers : List String) : List (String × ℝ) :=
  let df0 := df.filter (fun r => r.year == year)
  let df1 := df.filter (fun r => r.year == year + 1)
  let C0 := df0.map (fun r => r.emis)
  let Ct := df1.map (fun r => r.emis)
  let X0 := ((df0.map (fun r => drivers.map r.driver)).flatten).map (fun v => [v])
  let Xt := ((df1.map (fun r => drivers.map r.driver)).flatten).map (fun v => [v])
  let ans := if mode = "add" then PyLMDI.Add Ct C0 Xt X0 else PyLMDI.Mul Ct C0 Xt X0
  drivers.zip ans.tail

end LMDI_single_step

/-- Python's `range(start, stop)` over integers: empty when `stop ≤ start`. -/
def pyRange (start stop : Int) : List Int :=
  (List.range (stop - start).toNat).map (fun (j : ℕ) => start + (j : Int))

/-- `pandas.DataFrame.copy()`: a fresh frame holding the same rows. In the
embedding a frame is its list of rows, so the copy is the same value; what
matters is that the analysis below reads only this copy. -/
def dfCopy (df : List Row) : List Row := df

namespace LMDI_analysis

/-- `LMDI_analysis.LMDI_analysis_func`: one single-step decomposition per
year in `range(start, stop)`, assembled into a table indexed by those
years (`pd.DataFrame(res, index=range(start, stop))`). -/
noncomputable def LMDI_analysis_func (df : List Row) (start stop : Int)
    (mode : String) (drivers : List String) : List (Int × List (String × ℝ)) :=
  let res := (pyRange start stop).map (fun year =>
    LMDI_single_step.LMDI_decomposer df year mode drivers)
  List.zip (pyRange start stop) res

/-- State-passing embedding of constructing `LMDI_analysis` on a caller's
panel and running `LMDI_analysis_func`: the constructor stores
`df.copy()`, every statement of the source is a read (filters, column
selections, list/array constructions — none assigns into a frame), so the
caller's panel is returned unchanged next to the computed table. -/
noncomputable def runOnPanel (callerDf : List Row) (start stop : Int)
    (mode : String) (drivers : List String) :
    List Row × List (Int × List (String × ℝ)) :=
  let selfDf := dfCopy callerDf
  (callerDf, LMDI_analysis_func selfDf start stop mode drivers)

end LMDI_analysis

/-! ## Helper lemmas bridging list sums and `Finset.range` sums -/

namespace LMDIProofs

open PyLMDI

lemma list_sum_getD (xs : List ℝ) :
    xs.sum = ∑ i in Finset.range xs.length, xs.getD i 0 := by
  induction xs with
  | nil => simp
  | cons x xs ih =>
    rw [List.sum_cons, List.length_cons, Finset.sum_range_succ']
    simp [ih, add_comm]

lemma list_prod_getD (xs : List ℝ) :
    xs.prod = ∏ i in Finset.range xs.length, xs.getD i 1 := by
  induction xs with
  | nil => simp
  | cons x xs ih =>
    rw [List.prod_cons, List.length_cons, Finset.prod_range_succ']
    simp [ih, mul_comm]

lemma list_map_range_sum (f : ℕ → ℝ) (n : ℕ) :
    ((List.range n).map f).sum = ∑ i in Finset.range n, f i := by
  induction n with
  | zero => simp
  | succ n ih =>
    rw [List.range_succ, List.map_append, List.sum_append, Finset.sum_range_succ, ih]
    simp

lemma zipWith_sum_getD (g : List ℝ → List ℝ → ℝ) (A B : List (List ℝ))
    (h : A.length = B.length) :
    (List.zipWith g A B).sum
      = ∑ d in Finset.range A.length, g (A.getD d []) (B.getD d []) := by
  induction A generalizing B with
  | nil => simp
  | cons a A ih =>
    cases B with
    | nil => simp at h
    | cons b B =>
      rw [List.zipWith_cons_cons, List.sum_cons, List.length_cons,
        Finset.sum_range_succ']
      simp only [List.getD_cons_succ, List.getD_cons_zero]
      rw [ih B (by simpa using h)]
      ring

lemma zipWith_prod_getD (g : List ℝ → List ℝ → ℝ) (A B : List (List ℝ))
    (h : A.length = B.length) :
    (List.zipWith g A B).prod
      = ∏ d in Finset.range A.length, g (A.getD d []) (B.getD d []) := by
  induction A generalizing B with
  | nil => simp
  | cons a A ih =>
    cases B with
    | nil => simp at h
    | cons b B =>
      rw [List.zipWith_cons_cons, List.prod_cons, List.length_cons,
        Finset.prod_range_succ']
      simp only [List.getD_cons_succ, List.getD_cons_zero]
      rw [ih B (by simpa using h)]
      ring

lemma getD_mem_of_lt (A : List (List ℝ)) (d : ℕ) (hd : d < A.length) :
    A.getD d [] ∈ A := by
  rw [List.getD_eq_getElem _ _ hd]
  exact List.getElem_mem hd

lemma Lfun_mul_log_sub (a b : ℝ) (ha : 0 < a) (hb : 0 < b) :
    Lfun a b * (Real.log a - Real.log b) = a - b := by
  unfold Lfun
  by_cases hab : a = b
  · simp [hab]
  · rw [if_neg hab, div_mul_cancel₀]
    intro h
    exact hab (Real.log_injOn_pos (Set.mem_Ioi.2 ha) (Set.mem_Ioi.2 hb)
      (sub_eq_zero.mp h))

lemma list_sum_pos (xs : List ℝ) (hne : xs ≠ [])
    (hpos : ∀ i < xs.length, 0 < xs.getD i 0) : 0 < xs.sum := by
  rw [list_sum_getD]
  apply Finset.sum_pos
  · intro i hi
    exact hpos i (Finset.mem_range.mp hi)
  · rw [Finset.nonempty_range_iff]
    exact Nat.pos_iff_ne_zero.mp (List.length_pos.mpr hne)

end LMDIProofs

namespace LMDIProofs

open PyLMDI

/-- Core computation shared by the additive and multiplicative closure
claims: under positivity, alignment, and the row-wise
aggregate-equals-product identity, the per-driver additive terms sum to the
total change of the aggregate. -/
lemma add_tail_sum (Vt V0 : List ℝ) (Xt X0 : List (List ℝ))
    (hlen : V0.length = Vt.length)
    (hk : X0.length = Xt.length)
    (hX0len : ∀ s ∈ X0, s.length = Vt.length)
    (hV0pos : ∀ i < Vt.length, 0 < V0.getD i 0)
    (hVtpos : ∀ i < Vt.length, 0 < Vt.getD i 0)
    (hX0pos : ∀ s ∈ X0, ∀ i < Vt.length, 0 < s.getD i 0)
    (hXtpos : ∀ s ∈ Xt, ∀ i < Vt.length, 0 < s.getD i 0)
    (hid0 : ∀ i < Vt.length,
      V0.getD i 0 = ∏ d in Finset.range X0.length, (X0.getD d []).getD i 0)
    (hidt : ∀ i < Vt.length,
      Vt.getD i 0 = ∏ d in Finset.range X0.length, (Xt.getD d []).getD i 0) :
    (List.zipWith (fun s e => addTerm Vt V0 s e) X0 Xt).sum = Vt.sum - V0.sum := by
  rw [zipWith_sum_getD _ _ _ hk]
  have key : ∀ d ∈ Finset.range X0.length,
      addTerm Vt V0 (X0.getD d []) (Xt.getD d [])
        = ∑ i in Finset.range Vt.length,
            Lfun (Vt.getD i 0) (V0.getD i 0) *
              Real.log ((Xt.getD d []).getD i 0 / (X0.getD d []).getD i 0) := by
    intro d hd
    unfold addTerm
    rw [list_map_range_sum, hX0len _ (getD_mem_of_lt _ _ (Finset.mem_range.mp hd))]
  rw [Finset.sum_congr rfl key, Finset.sum_comm]
  have row : ∀ i ∈ Finset.range Vt.length,
      (∑ d in Finset.range X0.length,
        Lfun (Vt.getD i 0) (V0.getD i 0) *
          Real.log ((Xt.getD d []).getD i 0 / (X0.getD d []).getD i 0))
        = Vt.getD i 0 - V0.getD i 0 := by
    intro i hi
    have hi' := Finset.mem_range.mp hi
    rw [← Finset.mul_sum]
    have hlog : ∀ d ∈ Finset.range X0.length,
        Real.log ((Xt.getD d []).getD i 0 / (X0.getD d []).getD i 0)
          = Real.log ((Xt.getD d []).getD i 0)
            - Real.log ((X0.getD d []).getD i 0) := by
      intro d hd
      have hd' := Finset.mem_range.mp hd
      have h0 : 0 < (X0.getD d []).getD i 0 :=
        hX0pos _ (getD_mem_of_lt _ _ hd') i hi'
      have ht : 0 < (Xt.getD d []).getD i 0 :=
        hXtpos _ (getD_mem_of_lt _ _ (hk ▸ hd')) i hi'
      exact Real.log_div (ne_of_gt ht) (ne_of_gt h0)
    rw [Finset.sum_congr rfl hlog, Finset.sum_sub_distrib,
      ← Real.log_prod _ _ (fun d hd => ne_of_gt
        (hXtpos _ (getD_mem_of_lt _ _ (hk ▸ Finset.mem_range.mp hd)) i hi')),
      ← Real.log_prod _ _ (fun d hd => ne_of_gt
        (hX0pos _ (getD_mem_of_lt _ _ (Finset.mem_range.mp hd)) i hi')),
      ← hidt i hi', ← hid0 i hi']
    exact Lfun_mul_log_sub _ _ (hVtpos i hi') (hV0pos i hi')
  rw [Finset.sum_congr rfl row, Finset.sum_sub_distrib,
    ← list_sum_getD, list_sum_getD V0, hlen]

end LMDIProofs

namespace LMDIProofs

open PyLMDI

lemma mulTerm_eq_addTerm_div (Vt V0 s e : List ℝ) :
    mulTerm Vt V0 s e = addTerm Vt V0 s e / MulDenom Vt V0 := by
  unfold mulTerm addTerm
  rw [list_map_range_sum, list_map_range_sum, Finset.sum_div]
  exact Finset.sum_congr rfl (fun i _ => by rw [div_mul_eq_mul_div])

end LMDIProofs

/-- Claim C1: additive closure — for equal-length vectors of positive reals
`V0`, `Vt` and aligned positive driver matrices `X0`, `Xt` such that each
row's aggregate is the product of that row's driver values, the per-driver
contributions of `Add` (elements 1..k of its output) sum to its first output
element, the total change `sum(Vt) - sum(V0)`, exactly over the reals. -/
theorem C1_additive_closure (Vt V0 : List ℝ) (Xt X0 : List (List ℝ))
    (hlen : V0.length = Vt.length)
    (hk : X0.length = Xt.length)
    (hX0len : ∀ s ∈ X0, s.length = Vt.length)
    (hV0pos : ∀ i < Vt.length, 0 < V0.getD i 0)
    (hVtpos : ∀ i < Vt.length, 0 < Vt.getD i 0)
    (hX0pos : ∀ s ∈ X0, ∀ i < Vt.length, 0 < s.getD i 0)
    (hXtpos : ∀ s ∈ Xt, ∀ i < Vt.length, 0 < s.getD i 0)
    (hid0 : ∀ i < Vt.length,
      V0.getD i 0 = ∏ d in Finset.range X0.length, (X0.getD d []).getD i 0)
    (hidt : ∀ i < Vt.length,
      Vt.getD i 0 = ∏ d in Finset.range X0.length, (Xt.getD d []).getD i 0) :
    ((PyLMDI.Add Vt V0 Xt X0).tail).sum = (PyLMDI.Add Vt V0 Xt X0).headI
      ∧ (PyLMDI.Add Vt V0 Xt X0).headI = Vt.sum - V0.sum := by
  refine ⟨?_, rfl⟩
  have htail : (PyLMDI.Add Vt V0 Xt X0).tail
      = List.zipWith (fun s e => PyLMDI.addTerm Vt V0 s e) X0 Xt := rfl
  rw [htail, LMDIProofs.add_tail_sum Vt V0 Xt X0 hlen hk hX0len hV0pos hVtpos
    hX0pos hXtpos hid0 hidt]
  rfl

/-- Witness for C1 at a concrete transition: one row, one driver, the driver
equal to the aggregate (`V0 = [1]`, `Vt = [4]`). -/
theorem C1_additive_closure_witness :
    ((PyLMDI.Add [4] [1] [[4]] [[1]]).tail).sum = (PyLMDI.Add [4] [1] [[4]] [[1]]).headI
      ∧ (PyLMDI.Add [4] [1] [[4]] [[1]]).headI = List.sum [4] - List.sum [1] :=
  C1_additive_closure [4] [1] [[4]] [[1]] rfl rfl
    (by intro s hs; rw [List.mem_singleton] at hs; simp [hs])
    (by intro i hi
        have h0 : i = 0 := by simpa using hi
        simp [h0])
    (by intro i hi
        have h0 : i = 0 := by simpa using hi
        simp [h0])
    (by intro s hs i hi
        rw [List.mem_singleton] at hs
        have h0 : i = 0 := by simpa using hi
        simp [hs, h0])
    (by intro s hs i hi
        rw [List.mem_singleton] at hs
        have h0 : i = 0 := by simpa using hi
        simp [hs, h0])
    (by intro i hi
        have h0 : i = 0 := by simpa using hi
        simp [h0])
    (by intro i hi
        have h0 : i = 0 := by simpa using hi
        simp [h0])

/-- Claim C2: multiplicative closure — for equal-length vectors of positive
reals `V0`, `Vt` with `sum(Vt) ≠ sum(V0)` and aligned positive driver
matrices whose row-wise products reconstitute the aggregates, the
per-driver contributions of `Mul` (elements 1..k of its output) multiply to
its first output element, the total ratio `sum(Vt) / sum(V0)`, exactly over
the reals. -/
theorem C2_multiplicative_closure (Vt V0 : List ℝ) (Xt X0 : List (List ℝ))
    (hlen : V0.length = Vt.length)
    (hk : X0.length = Xt.length)
    (hX0len : ∀ s ∈ X0, s.length = Vt.length)
    (hV0pos : ∀ i < Vt.length, 0 < V0.getD i 0)
    (hVtpos : ∀ i < Vt.length, 0 < Vt.getD i 0)
    (hX0pos : ∀ s ∈ X0, ∀ i < Vt.length, 0 < s.getD i 0)
    (hXtpos : ∀ s ∈ Xt, ∀ i < Vt.length, 0 < s.getD i 0)
    (hid0 : ∀ i < Vt.length,
      V0.getD i 0 = ∏ d in Finset.range X0.length, (X0.getD d []).getD i 0)
    (hidt : ∀ i < Vt.length,
      Vt.getD i 0 = ∏ d in Finset.range X0.length, (Xt.getD d []).getD i 0)
    (hsumne : Vt.sum ≠ V0.sum) :
    ((PyLMDI.Mul Vt V0 Xt X0).tail).prod = (PyLMDI.Mul Vt V0 Xt X0).headI
      ∧ (PyLMDI.Mul Vt V0 Xt X0).headI = Vt.sum / V0.sum := by
  refine ⟨?_, rfl⟩
  have hVtne : Vt ≠ [] := by
    intro h
    apply hsumne
    have h0 : V0 = [] := List.length_eq_zero.mp (by rw [hlen, h]; rfl)
    rw [h, h0]
  have hV0ne : V0 ≠ [] := by
    intro h
    apply hVtne
    exact List.length_eq_zero.mp (by rw [← hlen, h]; rfl)
  have hVtsum : 0 < Vt.sum := LMDIProofs.list_sum_pos Vt hVtne hVtpos
  have hV0sum : 0 < V0.sum :=
    LMDIProofs.list_sum_pos V0 hV0ne (fun i hi => hV0pos i (by rw [← hlen]; exact hi))
  have htail : (PyLMDI.Mul Vt V0 Xt X0).tail
      = List.zipWith (fun s e => Real.exp (PyLMDI.mulTerm Vt V0 s e)) X0 Xt := rfl
  rw [htail, LMDIProofs.zipWith_prod_getD _ _ _ hk, ← Real.exp_sum]
  have hsum : (∑ d in Finset.range X0.length,
      PyLMDI.mulTerm Vt V0 (X0.getD d []) (Xt.getD d []))
        = (Vt.sum - V0.sum) / PyLMDI.MulDenom Vt V0 := by
    have h1 : ∀ d ∈ Finset.range X0.length,
        PyLMDI.mulTerm Vt V0 (X0.getD d []) (Xt.getD d [])
          = PyLMDI.addTerm Vt V0 (X0.getD d []) (Xt.getD d [])
              / PyLMDI.MulDenom Vt V0 :=
      fun d _ => LMDIProofs.mulTerm_eq_addTerm_div Vt V0 _ _
    rw [Finset.sum_congr rfl h1, ← Finset.sum_div,
      ← LMDIProofs.zipWith_sum_getD _ _ _ hk,
      LMDIProofs.add_tail_sum Vt V0 Xt X0 hlen hk hX0len hV0pos hVtpos
        hX0pos hXtpos hid0 hidt]
  have hdenom : PyLMDI.MulDenom Vt V0
      = (Vt.sum - V0.sum) / (Real.log Vt.sum - Real.log V0.sum) := by
    unfold PyLMDI.MulDenom PyLMDI.Lfun
    rw [if_neg hsumne]
  have hne : Vt.sum - V0.sum ≠ 0 := sub_ne_zero.mpr hsumne
  rw [hsum, hdenom, div_div_eq_mul_div, mul_comm, mul_div_assoc, div_self hne,
    mul_one, Real.exp_sub, Real.exp_log hVtsum, Real.exp_log hV0sum]
  rfl

/-- Witness for C2 at a concrete transition: one row, one driver, the driver
equal to the aggregate (`V0 = [1]`, `Vt = [4]`), total ratio 4. -/
theorem C2_multiplicative_closure_witness :
    ((PyLMDI.Mul [4] [1] [[4]] [[1]]).tail).prod = (PyLMDI.Mul [4] [1] [[4]] [[1]]).headI
      ∧ (PyLMDI.Mul [4] [1] [[4]] [[1]]).headI = List.sum [4] / List.sum [1] :=
  C2_multiplicative_closure [4] [1] [[4]] [[1]] rfl rfl
    (by intro s hs; rw [List.mem_singleton] at hs; simp [hs])
    (by intro i hi
        have h0 : i = 0 := by simpa using hi
        simp [h0])
    (by intro i hi
        have h0 : i = 0 := by simpa using hi
        simp [h0])
    (by intro s hs i hi
        rw [List.mem_singleton] at hs
        have h0 : i = 0 := by simpa using hi
        simp [hs, h0])
    (by intro s hs i hi
        rw [List.mem_singleton] at hs
        have h0 : i = 0 := by simpa using hi
        simp [hs, h0])
    (by intro i hi
        have h0 : i = 0 := by simpa using hi
        simp [h0])
    (by intro i hi
        have h0 : i = 0 := by simpa using hi
        simp [h0])
    (by norm_num)

/-- Claim C6: degenerate multiplicative input — whenever the two aggregate
vectors have equal sums (with at least one driver and one row present), the
denominator `Lfun(sum(Vt), sum(V0))` that every per-driver term of `Mul`
divides by equals 0, by the equality branch of `Lfun`; `Mul` contains no
check preventing this division by zero. -/
theorem C6_degenerate_mul_denominator (Vt V0 : List ℝ) (Xt X0 : List (List ℝ))
    (hdrv : 1 ≤ Xt.length) (hrow : 1 ≤ Vt.length)
    (hsum : Vt.sum = V0.sum) :
    PyLMDI.MulDenom Vt V0 = 0 := by
  unfold PyLMDI.MulDenom PyLMDI.Lfun
  rw [if_pos hsum]

/-- Witness for C6: a two-row, one-driver input whose aggregate total is
unchanged between the periods. -/
theorem C6_degenerate_mul_denominator_witness :
    List.sum [1, 2] = List.sum [2, 1] ∧ PyLMDI.MulDenom [1, 2] [2, 1] = 0 :=
  ⟨by norm_num, C6_degenerate_mul_denominator [1, 2] [2, 1] [[1, 1]] [[1, 1]]
    (by norm_num) (by norm_num) (by norm_num)⟩

/-- Claim C10: the logarithmic mean `Lfun` is symmetric in its two
arguments, so a row's decomposition weight does not depend on which period
is labelled initial and which final. -/
theorem C10_Lfun_symm (a b : ℝ) : PyLMDI.Lfun a b = PyLMDI.Lfun b a := by
  unfold PyLMDI.Lfun
  by_cases hab : a = b
  · simp [hab]
  · rw [if_neg hab, if_neg (fun h => hab h.symm), ← neg_sub b a,
      ← neg_sub (Real.log b) (Real.log a), neg_div_neg_eq]

namespace LMDIProofs

open PyLMDI

lemma addTerm_eq_spec (Vt V0 s e : List ℝ)
    (h : ∀ i < s.length, s.getD i 0 ≠ 0 ∧ e.getD i 0 ≠ 0) :
    addTerm Vt V0 s e = addTermSpec Vt V0 s e := by
  unfold addTerm addTermSpec
  rw [list_map_range_sum, list_map_range_sum]
  refine Finset.sum_congr rfl (fun i hi => ?_)
  have hi' := Finset.mem_range.mp hi
  unfold Xfun
  rw [if_neg (h i hi').1, if_neg (h i hi').2]

lemma zipWith_addTerm_eq_spec (Vt V0 : List ℝ) (X0 Xt : List (List ℝ))
    (hpairs : ∀ p ∈ List.zip X0 Xt, ∀ i < p.1.length,
      p.1.getD i 0 ≠ 0 ∧ p.2.getD i 0 ≠ 0) :
    List.zipWith (fun s e => addTerm Vt V0 s e) X0 Xt
      = List.zipWith (fun s e => addTermSpec Vt V0 s e) X0 Xt := by
  induction X0 generalizing Xt with
  | nil => simp
  | cons s X0 ih =>
    cases Xt with
    | nil => simp
    | cons e Xt =>
      rw [List.zipWith_cons_cons, List.zipWith_cons_cons]
      congr 1
      · exact addTerm_eq_spec Vt V0 s e
          (hpairs (s, e) (by rw [List.zip_cons_cons]; exact List.mem_cons_self _ _))
      · exact ih Xt (fun p hp i hi => hpairs p
          (by rw [List.zip_cons_cons]; exact List.mem_cons_of_mem _ hp) i hi)

end LMDIProofs

/-- Claim C4 counterexample: with a zero initial driver value (`X0 = [[0]]`,
`Xt = [[2]]`, `V0 = [1]`, `Vt = [e^?]`-free choice `Vt = [2]`), the
contribution `Add` computes is not `Σ_i LogMean * LogRatio`: `Add` takes the
raw log of the quotient instead of the zero-sentinel `Xfun`, so the row does
not contribute `LogMean * 1`. -/
theorem C4_counterexample :
    (PyLMDI.Add [2] [1] [[2]] [[0]]).getD 1 0
      ≠ PyLMDI.addTermSpec [2] [1] [0] [2] := by
  have hlog2 : Real.log 2 ≠ 0 := ne_of_gt (Real.log_pos one_lt_two)
  have hL : PyLMDI.Lfun 2 1 = 1 / Real.log 2 := by
    unfold PyLMDI.Lfun
    rw [if_neg (by norm_num), Real.log_one]
    norm_num
  have hadd : (PyLMDI.Add [2] [1] [[2]] [[0]]).getD 1 0 = 0 := by
    simp [PyLMDI.Add, PyLMDI.addTerm, List.range_succ]
  have hspec : PyLMDI.addTermSpec [2] [1] [0] [2] = 1 / Real.log 2 := by
    simp [PyLMDI.addTermSpec, PyLMDI.Xfun, List.range_succ, hL]
  rw [hadd, hspec]
  exact Ne.symm (one_div_ne_zero hlog2)

/-- Claim C4 as amended: the additive contribution of driver `d` is
`Σ_i LogMean(Vt[i], V0[i]) * ln(Xt[d][i] / X0[d][i])` with the raw log of
the quotient; it coincides with the spec's `Σ_i LogMean * LogRatio` formula
whenever every driver value involved is nonzero, but `Add` never calls the
zero-sentinel `Xfun`, so a zero driver value is not mapped to `LogMean * 1`. -/
theorem C4_amended_add_matches_spec_on_nonzero (Vt V0 : List ℝ)
    (Xt X0 : List (List ℝ))
    (hpairs : ∀ p ∈ List.zip X0 Xt, ∀ i < p.1.length,
      p.1.getD i 0 ≠ 0 ∧ p.2.getD i 0 ≠ 0) :
    (PyLMDI.Add Vt V0 Xt X0).tail
      = List.zipWith (fun s e => PyLMDI.addTermSpec Vt V0 s e) X0 Xt := by
  have htail : (PyLMDI.Add Vt V0 Xt X0).tail
      = List.zipWith (fun s e => PyLMDI.addTerm Vt V0 s e) X0 Xt := rfl
  rw [htail, LMDIProofs.zipWith_addTerm_eq_spec Vt V0 X0 Xt hpairs]

/-- Witness for the amended C4 at a concrete nonzero input. -/
theorem C4_amended_witness :
    (PyLMDI.Add [2] [1] [[2]] [[1]]).tail
      = List.zipWith (fun s e => PyLMDI.addTermSpec [2] [1] s e) [[1]] [[2]] :=
  C4_amended_add_matches_spec_on_nonzero [2] [1] [[2]] [[1]]
    (by intro p hp i hi
        rw [List.zip_cons_cons] at hp
        simp only [List.zip_nil_right, List.mem_singleton] at hp
        subst hp
        simp only [List.length_singleton] at hi
        have h0 : i = 0 := by omega
        subst h0
        norm_num)

/-- Claim C5 (divergence): the decomposer dispatches on the exact string
`"add"` and silently routes every other mode string to the multiplicative
path — no rejection happens, the result for an unrecognized mode equals the
result for `"mul"`. -/
theorem C5_no_mode_rejection (df : List Row) (year : Int)
    (drivers : List String) (mode : String) (hmode : mode ≠ "add") :
    LMDI_single_step.LMDI_decomposer df year mode drivers
      = LMDI_single_step.LMDI_decomposer df year "mul" drivers := by
  unfold LMDI_single_step.LMDI_decomposer
  simp only [if_neg hmode, if_neg (show ¬("mul" = "add") by decide)]

/-- Witness for C5: the unrecognized mode string "bogus" silently produces
the multiplicative decomposition. -/
theorem C5_no_mode_rejection_witness :
    LMDI_single_step.LMDI_decomposer [] 0 "bogus" []
      = LMDI_single_step.LMDI_decomposer [] 0 "mul" [] :=
  C5_no_mode_rejection [] 0 [] "bogus" (by decide)

/-- Claim C9: no mutation of the caller's panel — the analysis is built on
`df.copy()` and every operation of the core is a read, so running the whole
multi-year analysis hands back the caller's panel unchanged, and the table
computed from the copy equals the table of the original panel. -/
theorem C9_no_mutation (df : List Row) (start stop : Int) (mode : String)
    (drivers : List String) :
    (LMDI_analysis.runOnPanel df start stop mode drivers).1 = df
      ∧ (LMDI_analysis.runOnPanel df start stop mode drivers).2
        = LMDI_analysis.LMDI_analysis_func df start stop mode drivers :=
  ⟨rfl, rfl⟩

/-- Claim C3 (code-bug evaluation): on the spec's end-to-end
trivial-identity panel — two years (0 and 1), two unit rows per year,
aggregates `[1, 1]` then `[2, 5]`, one driver "x" equal to the aggregate in
every row — the additive single-step decomposer returns contribution 1 for
"x" instead of the total change 5: `reshape([-1, 1])` turns the two unit
rows into singleton pseudo-drivers weighted by row 0's log-mean, and the
zip with the single driver name silently drops the second term. -/
theorem C3_end_to_end_identity_fails :
    LMDI_single_step.LMDI_decomposer
        [⟨0, 1, fun _ => 1⟩, ⟨0, 1, fun _ => 1⟩,
         ⟨1, 2, fun _ => 2⟩, ⟨1, 5, fun _ => 5⟩] 0 "add" ["x"]
      = [("x", 1)]
    ∧ (PyLMDI.Add [2, 5] [1, 1] [[2], [5]] [[1], [1]]).headI = 5
    ∧ (1 : ℝ) ≠ 5 := by
  refine ⟨?_, by norm_num [PyLMDI.Add], by norm_num⟩
  have hlog2 : Real.log 2 ≠ 0 := ne_of_gt (Real.log_pos one_lt_two)
  simp [LMDI_single_step.LMDI_decomposer, List.filter, PyLMDI.Add, PyLMDI.addTerm,
    List.range_succ]
  unfold PyLMDI.Lfun
  rw [if_neg (by norm_num), Real.log_one]
  norm_num

namespace LMDIProofs

lemma log_32_upper : Real.log (3 / 2) ≤ 807 / 1920 := by
  have h := Real.abs_log_sub_add_sum_range_le
    (show |(-(1/2) : ℝ)| < 1 by rw [abs_neg]; rw [abs_of_pos] <;> norm_num) 6
  rw [show (1 : ℝ) - -(1/2) = 3 / 2 by norm_num] at h
  have hs : (∑ i in Finset.range 6, (-(1/2) : ℝ) ^ (i + 1) / (i + 1)) = -777 / 1920 := by
    norm_num [Finset.sum_range_succ]
  rw [hs] at h
  have h2 := (abs_le.mp h).2
  have h3 : |(-(1/2) : ℝ)| ^ (6 + 1) / (1 - |(-(1/2) : ℝ)|) = 1 / 64 := by
    rw [abs_neg, abs_of_pos (show (0:ℝ) < 1/2 by norm_num)]
    norm_num
  rw [h3] at h2
  linarith

lemma log_65_lower : 7 / 40 ≤ Real.log (6 / 5) := by
  have h := Real.abs_log_sub_add_sum_range_le
    (show |(1/6 : ℝ)| < 1 by rw [abs_of_pos] <;> norm_num) 2
  rw [show (1 : ℝ) - 1/6 = 5 / 6 by norm_num] at h
  have hs : (∑ i in Finset.range 2, ((1/6) : ℝ) ^ (i + 1) / (i + 1)) = 13 / 72 := by
    norm_num [Finset.sum_range_succ]
  rw [hs] at h
  have h2 := (abs_le.mp h).2
  have h3 : |(1/6 : ℝ)| ^ (2 + 1) / (1 - |(1/6 : ℝ)|) = 1 / 180 := by
    rw [abs_of_pos (show (0:ℝ) < 1/6 by norm_num)]
    norm_num
  rw [h3] at h2
  have h56 : Real.log (5 / 6) = -Real.log (6 / 5) := by
    rw [show (5/6 : ℝ) = (6/5)⁻¹ by norm_num, Real.log_inv]
  rw [h56] at h2
  linarith

lemma log_54_upper : Real.log (5 / 4) < 1 / 4 := by
  have h := Real.log_lt_sub_one_of_pos (show (0:ℝ) < 5/4 by norm_num) (by norm_num)
  linarith

lemma c7_value :
    (PyLMDI.Add [12, 8] [10, 10] [[3, 1]] [[2, 2]]).getD 1 0
      = 2 * (Real.log (3 / 2) / Real.log (6 / 5))
        - 2 * (Real.log 2 / Real.log (5 / 4)) := by
  have hadd : (PyLMDI.Add [12, 8] [10, 10] [[3, 1]] [[2, 2]]).getD 1 0
      = PyLMDI.Lfun 12 10 * Real.log (3 / 2)
        + PyLMDI.Lfun 8 10 * Real.log (1 / 2) := by
    simp [PyLMDI.Add, PyLMDI.addTerm, List.range_succ]
  have h1 : PyLMDI.Lfun 12 10 = 2 / Real.log (6 / 5) := by
    unfold PyLMDI.Lfun
    rw [if_neg (by norm_num), ← Real.log_div (by norm_num) (by norm_num)]
    norm_num
  have h2 : PyLMDI.Lfun 8 10 = 2 / Real.log (5 / 4) := by
    unfold PyLMDI.Lfun
    rw [if_neg (by norm_num), ← Real.log_div (by norm_num) (by norm_num)]
    rw [show ((8 : ℝ) / 10) = (5/4)⁻¹ by norm_num, Real.log_inv]
    norm_num
  have h12 : Real.log (1 / 2) = -Real.log 2 := by
    rw [one_div, Real.log_inv]
  rw [hadd, h1, h2, h12]
  ring

lemma c7_neg :
    2 * (Real.log (3 / 2) / Real.log (6 / 5))
      - 2 * (Real.log 2 / Real.log (5 / 4)) < 0 := by
  have p65 : (0:ℝ) < Real.log (6 / 5) := Real.log_pos (by norm_num)
  have p54 : (0:ℝ) < Real.log (5 / 4) := Real.log_pos (by norm_num)
  have p32 : (0:ℝ) ≤ Real.log (3 / 2) := le_of_lt (Real.log_pos (by norm_num))
  have p2 : (0:ℝ) < Real.log 2 := Real.log_pos one_lt_two
  have q1a : Real.log (3 / 2) / Real.log (6 / 5) ≤ Real.log (3 / 2) / (7 / 40) :=
    div_le_div_of_nonneg_left p32 (by norm_num) log_65_lower
  have q1b : Real.log (3 / 2) / (7 / 40) ≤ (807 / 1920 : ℝ) / (7 / 40) :=
    (div_le_div_iff_of_pos_right (by norm_num)).mpr log_32_upper
  have q2a : Real.log 2 / (1 / 4) < Real.log 2 / Real.log (5 / 4) :=
    div_lt_div_of_pos_left p2 p54 log_54_upper
  have q2b : (0.6931471803 : ℝ) / (1 / 4) < Real.log 2 / (1 / 4) :=
    (div_lt_div_iff_of_pos_right (by norm_num)).mpr Real.log_two_gt_d9
  have hnum : (807 / 1920 : ℝ) / (7 / 40) < (0.6931471803 : ℝ) / (1 / 4) := by
    norm_num
  linarith

end LMDIProofs

/-- Claim C7 counterexample: at the spec's single-driver two-row example
(`V0 = [10, 10]`, `Vt = [12, 8]`, `X0 = [[2, 2]]`, `Xt = [[3, 1]]`), the
additive decomposition's driver contribution is not 0. -/
theorem C7_counterexample :
    (PyLMDI.Add [12, 8] [10, 10] [[3, 1]] [[2, 2]]).getD 1 0 ≠ 0 := by
  rw [LMDIProofs.c7_value]
  exact ne_of_lt LMDIProofs.c7_neg

/-- Claim C7 as amended: at the spec's single-driver two-row example the
additive driver contribution equals
`2·ln(3/2)/ln(6/5) − 2·ln 2/ln(5/4)` (about −1.77), a strictly negative
value rather than 0: with the driver not satisfying the aggregate-equals-
product identity, the single-driver contribution need not match the total
change even though the total change is 0. -/
theorem C7_amended_value :
    (PyLMDI.Add [12, 8] [10, 10] [[3, 1]] [[2, 2]]).getD 1 0
        = 2 * (Real.log (3 / 2) / Real.log (6 / 5))
          - 2 * (Real.log 2 / Real.log (5 / 4))
      ∧ (PyLMDI.Add [12, 8] [10, 10] [[3, 1]] [[2, 2]]).getD 1 0 < 0 :=
  ⟨LMDIProofs.c7_value, by rw [LMDIProofs.c7_value]; exact LMDIProofs.c7_neg⟩

namespace LMDIProofs

lemma zip_self_map {α β : Type*} (l : List α) (g : α → β) :
    List.zip l (l.map g) = l.map (fun x => (x, g x)) := by
  induction l with
  | nil => rfl
  | cons x l ih => simp [List.zip_cons_cons, ih]

end LMDIProofs

/-- Claim C8: multi-year scan shape — for `start < stop` the analysis table
has exactly `stop - start` rows, the row at position `j` carries the index
`start + j`, and it holds exactly the per-driver mapping of the single-step
decomposition of the transition `start + j → start + j + 1`. -/
theorem C8_multi_year_scan (df : List Row) (start stop : Int) (mode : String)
    (drivers : List String) (h : start < stop) :
    ((LMDI_analysis.LMDI_analysis_func df start stop mode drivers).length : Int)
        = stop - start
      ∧ ∀ j < (LMDI_analysis.LMDI_analysis_func df start stop mode drivers).length,
          (LMDI_analysis.LMDI_analysis_func df start stop mode drivers).getD j (0, [])
            = (start + (j : Int),
               LMDI_single_step.LMDI_decomposer df (start + (j : Int)) mode drivers) := by
  have hfunc : LMDI_analysis.LMDI_analysis_func df start stop mode drivers
      = (pyRange start stop).map
          (fun y => (y, LMDI_single_step.LMDI_decomposer df y mode drivers)) := by
    unfold LMDI_analysis.LMDI_analysis_func
    exact LMDIProofs.zip_self_map _ _
  have hplen : (pyRange start stop).length = (stop - start).toNat := by
    unfold pyRange
    rw [List.length_map, List.length_range]
  constructor
  · rw [hfunc, List.length_map, hplen]
    omega
  · intro j hj
    rw [hfunc] at hj ⊢
    rw [List.getD_eq_getElem _ _ hj, List.getElem_map]
    rw [List.length_map] at hj
    have hval : (pyRange start stop)[j] = start + (j : Int) := by
      unfold pyRange
      rw [List.getElem_map, List.getElem_range]
    rw [hval]

/-- Witness for C8: a 0-to-2 scan produces two rows indexed 0 and 1. -/
theorem C8_multi_year_scan_witness :
    ((LMDI_analysis.LMDI_analysis_func [] 0 2 "add" []).length : Int) = 2 - 0
      ∧ ∀ j < (LMDI_analysis.LMDI_analysis_func [] 0 2 "add" []).length,
          (LMDI_analysis.LMDI_analysis_func [] 0 2 "add" []).getD j (0, [])
            = (0 + (j : Int),
               LMDI_single_step.LMDI_decomposer [] (0 + (j : Int)) "add" []) :=
  C8_multi_year_scan [] 0 2 "add" [] (by decide)
